import Mathlib

/-!
Verification of the Huffman tree construction, layout and viewport logic of
`src/gui/tree_visualizer.py` (classes `TreeNode` and `TreeCanvas`).

The Python code is shallowly embedded:
* `TreeNode` (optional `char`, integer `freq`, optional `left`/`right`
  children) becomes the mutual inductive pair `TreeNode`/`ChildNode`
  (`ChildNode` is `Option TreeNode` spelled out, so that all recursions are
  plain mutual structural recursions).
* Python `float` coordinates and zoom/pan state are modelled as rationals.
* `list.sort(key=lambda x: x.freq)` is a stable ascending sort by frequency;
  it is modelled by `List.insertionSort`, which computes the identical
  stable result for this total preorder.
* The `while len(nodes) > 1` loop of `_build_tree` is modelled with explicit
  fuel; each iteration shrinks the list by exactly one element, so fuel
  equal to the initial length is enough.
* Pure UI calls (`setMinimumSize`, `update`, cursor changes, painting) have
  no bearing on the modelled state and are omitted.
-/

mutual
/-- Embeds class `TreeNode` of `tree_visualizer.py`: `char` (possibly `None`),
`freq`, and optional `left`/`right` children.  The mutable `x`/`y` fields are
kept separately in `PosTree` below, mirroring `_calculate_positions`. -/
inductive TreeNode : Type where
  | mk (char : Option Char) (freq : Int) (left : ChildNode) (right : ChildNode)
  deriving Repr, DecidableEq
/-- `Option TreeNode`, spelled out as part of the mutual block. -/
inductive ChildNode : Type where
  | none : ChildNode
  | some (t : TreeNode) : ChildNode
  deriving Repr, DecidableEq
end

def TreeNode.char : TreeNode → Option Char
  | TreeNode.mk c _ _ _ => c

def TreeNode.freq : TreeNode → Int
  | TreeNode.mk _ f _ _ => f

def TreeNode.left : TreeNode → ChildNode
  | TreeNode.mk _ _ l _ => l

def TreeNode.right : TreeNode → ChildNode
  | TreeNode.mk _ _ _ r => r

/-- `TreeNode.is_leaf`: both children absent. -/
def TreeNode.is_leaf : TreeNode → Bool
  | TreeNode.mk _ _ ChildNode.none ChildNode.none => true
  | _ => false

/-- The sort order used by `nodes.sort(key=lambda x: x.freq)`: ascending
frequency. -/
def nodeLe (a b : TreeNode) : Prop := a.freq ≤ b.freq

instance : DecidableRel nodeLe := fun a b => inferInstanceAs (Decidable (a.freq ≤ b.freq))

instance : IsTotal TreeNode nodeLe := ⟨fun a b => Int.le_total a.freq b.freq⟩

instance : IsTrans TreeNode nodeLe := ⟨fun _ _ _ h h' => Int.le_trans h h'⟩

/-- One iteration of the `while len(nodes) > 1` loop of
`TreeCanvas._build_tree`: stable-sort ascending by frequency, pop the two
lowest nodes as `left` and `right`, and append the merged parent at the end. -/
def mergeStep (nodes : List TreeNode) : List TreeNode :=
  match List.insertionSort nodeLe nodes with
  | left :: right :: rest =>
      rest ++ [TreeNode.mk Option.none (left.freq + right.freq)
                (ChildNode.some left) (ChildNode.some right)]
  | other => other

/-- The `while len(nodes) > 1` loop, with fuel.  Each iteration removes two
nodes and appends one, so fuel equal to the list length is enough; the
`[t]` case is also the `len(nodes) == 1` early return of `_build_tree`. -/
def buildLoopFuel : Nat → List TreeNode → Option TreeNode
  | _, [] => Option.none
  | _, [t] => Option.some t
  | Nat.succ fuel, a :: b :: rest => buildLoopFuel fuel (mergeStep (a :: b :: rest))
  | 0, _ :: _ :: _ => Option.none

/-- `TreeCanvas._build_tree(frequency_data)`.  The dict is modelled as an
association list in insertion order (Python dicts iterate in insertion
order); entries with non-positive frequency are dropped by the list
comprehension's `if freq > 0` filter. -/
def build_tree (frequency_data : List (Char × Int)) : Option TreeNode :=
  let nodes := (frequency_data.filter fun p => decide (0 < p.2)).map
    fun p => TreeNode.mk (Option.some p.1) p.2 ChildNode.none ChildNode.none
  if nodes.isEmpty then Option.none
  else buildLoopFuel nodes.length nodes

mutual
/-- `TreeCanvas._calculate_tree_width`: leaves occupy `MIN_NODE_SPACING = 60`,
other nodes the sum of their children's widths (`None` counting 0). -/
def treeWidth : TreeNode → Nat
  | TreeNode.mk _ _ ChildNode.none ChildNode.none => 60
  | TreeNode.mk _ _ l r => treeWidthC l + treeWidthC r
def treeWidthC : ChildNode → Nat
  | ChildNode.none => 0
  | ChildNode.some t => treeWidth t
end

mutual
/-- `TreeCanvas._get_tree_height`: `None` is 0, a node is one more than the
larger child height. -/
def treeHeight : TreeNode → Nat
  | TreeNode.mk _ _ l r => 1 + max (treeHeightC l) (treeHeightC r)
def treeHeightC : ChildNode → Nat
  | ChildNode.none => 0
  | ChildNode.some t => treeHeight t
end

mutual
/-- Number of nodes of a tree (used to state the non-degeneracy hypothesis
"more than one node"). -/
def countNodes : TreeNode → Nat
  | TreeNode.mk _ _ l r => 1 + countNodesC l + countNodesC r
def countNodesC : ChildNode → Nat
  | ChildNode.none => 0
  | ChildNode.some t => countNodes t
end

mutual
/-- The structural invariant of the spec's data model: a node is a leaf iff
both children are absent iff `char` is present (in particular no one-child
nodes), and an internal node's frequency is the sum of its children's. -/
def structOK : TreeNode → Bool
  | TreeNode.mk c _ ChildNode.none ChildNode.none => c.isSome
  | TreeNode.mk c f (ChildNode.some l) (ChildNode.some r) =>
      c.isNone && decide (f = l.freq + r.freq) && structOK l && structOK r
  | TreeNode.mk _ _ _ _ => false
def structOKC : ChildNode → Bool
  | ChildNode.none => true
  | ChildNode.some t => structOK t
end

mutual
/-- The `(char, freq)` pairs of the leaves of a tree, left to right. -/
def leavesOf : TreeNode → List (Option Char × Int)
  | TreeNode.mk c f ChildNode.none ChildNode.none => [(c, f)]
  | TreeNode.mk _ _ l r => leavesOfC l ++ leavesOfC r
def leavesOfC : ChildNode → List (Option Char × Int)
  | ChildNode.none => []
  | ChildNode.some t => leavesOf t
end

mutual
/-- Every two-child node has `left.freq ≤ right.freq`. -/
def leftFreqLe : TreeNode → Bool
  | TreeNode.mk _ _ (ChildNode.some l) (ChildNode.some r) =>
      decide (l.freq ≤ r.freq) && leftFreqLe l && leftFreqLe r
  | TreeNode.mk _ _ (ChildNode.some l) ChildNode.none => leftFreqLe l
  | TreeNode.mk _ _ ChildNode.none (ChildNode.some r) => leftFreqLe r
  | TreeNode.mk _ _ ChildNode.none ChildNode.none => true
def leftFreqLeC : ChildNode → Bool
  | ChildNode.none => true
  | ChildNode.some t => leftFreqLe t
end

mutual
/-- A `TreeNode` together with the `x`, `y` coordinates that
`_calculate_positions` stores into it. -/
inductive PosTree : Type where
  | mk (char : Option Char) (freq : Int) (x y : ℚ) (left right : ChildPos)
  deriving Repr, DecidableEq
inductive ChildPos : Type where
  | none : ChildPos
  | some (t : PosTree) : ChildPos
  deriving Repr, DecidableEq
end

def PosTree.x : PosTree → ℚ
  | PosTree.mk _ _ x _ _ _ => x

def PosTree.y : PosTree → ℚ
  | PosTree.mk _ _ _ y _ _ => y

def PosTree.left : PosTree → ChildPos
  | PosTree.mk _ _ _ _ l _ => l

def PosTree.right : PosTree → ChildPos
  | PosTree.mk _ _ _ _ _ r => r

mutual
/-- `TreeCanvas._calculate_positions(node, x_start, x_end, level)`: the node
gets `x = (x_start + x_end) / 2` and `y = level * LEVEL_HEIGHT + 60`
(`LEVEL_HEIGHT = 80`); the left child recurses on `(x_start, mid)` and the
right child on `(mid, x_end)` with `mid = (x_start + x_end) / 2`. -/
def calcPos : TreeNode → ℚ → ℚ → Nat → PosTree
  | TreeNode.mk c f l r, x_start, x_end, level =>
      PosTree.mk c f ((x_start + x_end) / 2) ((level : ℚ) * 80 + 60)
        (calcPosC l x_start ((x_start + x_end) / 2) (level + 1))
        (calcPosC r ((x_start + x_end) / 2) x_end (level + 1))
def calcPosC : ChildNode → ℚ → ℚ → Nat → ChildPos
  | ChildNode.none, _, _, _ => ChildPos.none
  | ChildNode.some t, x_start, x_end, level => ChildPos.some (calcPos t x_start x_end level)
end

mutual
/-- All `(depth, x, y)` triples of a positioned tree, the root being at the
given depth. -/
def entriesD : PosTree → Nat → List (Nat × ℚ × ℚ)
  | PosTree.mk _ _ x y l r, d => (d, x, y) :: (entriesDC l (d + 1) ++ entriesDC r (d + 1))
def entriesDC : ChildPos → Nat → List (Nat × ℚ × ℚ)
  | ChildPos.none, _ => []
  | ChildPos.some t, d => entriesD t d
end

/-- The `(depth, x, y)` triples produced by `set_tree`, which calls
`_calculate_positions(root, 0, tree_width, 0)`. -/
def layoutEntries (t : TreeNode) : List (Nat × ℚ × ℚ) :=
  entriesD (calcPos t 0 (treeWidth t : ℚ) 0) 0

/-- The zoom/pan state of `TreeCanvas` (fields set in `__init__`), together
with the tree it displays.  Geometry-only fields (`minimumSize`, cursor,
mouse bookkeeping) are not part of the modelled state. -/
structure TreeCanvas where
  root : Option TreeNode
  zoom_level : ℚ
  min_zoom : ℚ
  max_zoom : ℚ
  pan_x : ℚ
  pan_y : ℚ
  deriving Repr, DecidableEq

/-- The state right after `TreeCanvas.__init__`. -/
def initCanvas : TreeCanvas :=
  { root := Option.none, zoom_level := 1, min_zoom := 3/10, max_zoom := 3
    pan_x := 0, pan_y := 0 }

/-- `TreeCanvas.set_zoom`: store `max(min_zoom, min(max_zoom, zoom))`.
The subsequent `setMinimumSize`/`update` calls only affect widget geometry. -/
def set_zoom (s : TreeCanvas) (zoom : ℚ) : TreeCanvas :=
  { s with zoom_level := max s.min_zoom (min s.max_zoom zoom) }

/-- The pan update of `TreeCanvas.mouseMoveEvent` for a drag delta
`(dx, dy)`: `pan_x += dx / zoom_level`, `pan_y += dy / zoom_level`. -/
def pan_by (s : TreeCanvas) (dx dy : ℚ) : TreeCanvas :=
  { s with pan_x := s.pan_x + dx / s.zoom_level, pan_y := s.pan_y + dy / s.zoom_level }

/-- `TreeCanvas.fit_to_view(viewport_width, viewport_height)`: with no tree it
returns immediately; otherwise it computes the margined bounding box, the
per-axis zooms (guarding a zero denominator with 1.0), caps their minimum at
1.0, clamps from below by `min_zoom`, stores the result and resets the pan. -/
def fit_to_view (s : TreeCanvas) (viewport_width viewport_height : ℚ) : TreeCanvas :=
  match s.root with
  | Option.none => s
  | Option.some root =>
      let tree_width : ℚ := (treeWidth root : ℚ) + 100
      let tree_height : ℚ := (treeHeight root : ℚ) * 80 + 120
      let zoom_x : ℚ := if 0 < tree_width then viewport_width / tree_width else 1
      let zoom_y : ℚ := if 0 < tree_height then viewport_height / tree_height else 1
      let optimal_zoom := max (min (min zoom_x zoom_y) 1) s.min_zoom
      { s with zoom_level := optimal_zoom, pan_x := 0, pan_y := 0 }

mutual
/-- Width of a positioned subtree, by the spec's rule: leaves occupy
`minSlotWidth` (60), other nodes the sum of their children's widths. -/
def posWidth : PosTree → Nat
  | PosTree.mk _ _ _ _ ChildPos.none ChildPos.none => 60
  | PosTree.mk _ _ _ _ l r => posWidthC l + posWidthC r
def posWidthC : ChildPos → Nat
  | ChildPos.none => 0
  | ChildPos.some t => posWidth t
end

mutual
/-- The horizontal-layout rule exactly as the claim words it: each node sits
at the midpoint of its allotted interval `[x_start, x_end]`, and the interval
is split into two sub-intervals proportional to the children's widths, the
left child receiving the left one.  (The zero-width guard is unreachable when
a child is present, since every subtree has positive width.) -/
def propSplitLayout : PosTree → ℚ → ℚ → Prop
  | PosTree.mk _ _ x _ l r, x_start, x_end =>
      x = (x_start + x_end) / 2 ∧
      propSplitLayoutC l x_start
        (if (posWidthC l : ℚ) + (posWidthC r : ℚ) = 0 then (x_start + x_end) / 2
         else x_start + (x_end - x_start) * (posWidthC l : ℚ) /
            ((posWidthC l : ℚ) + (posWidthC r : ℚ))) ∧
      propSplitLayoutC r
        (if (posWidthC l : ℚ) + (posWidthC r : ℚ) = 0 then (x_start + x_end) / 2
         else x_start + (x_end - x_start) * (posWidthC l : ℚ) /
            ((posWidthC l : ℚ) + (posWidthC r : ℚ))) x_end
def propSplitLayoutC : ChildPos → ℚ → ℚ → Prop
  | ChildPos.none, _, _ => True
  | ChildPos.some t, x_start, x_end => propSplitLayout t x_start x_end
end

mutual
/-- The amended horizontal-layout rule: each node sits at the midpoint of its
allotted interval, and the interval is split into two equal halves at that
same midpoint, the left child receiving the left half and the right child the
right half. -/
def halfSplitLayout : PosTree → ℚ → ℚ → Prop
  | PosTree.mk _ _ x _ l r, x_start, x_end =>
      x = (x_start + x_end) / 2 ∧
      halfSplitLayoutC l x_start ((x_start + x_end) / 2) ∧
      halfSplitLayoutC r ((x_start + x_end) / 2) x_end
def halfSplitLayoutC : ChildPos → ℚ → ℚ → Prop
  | ChildPos.none, _, _ => True
  | ChildPos.some t, x_start, x_end => halfSplitLayout t x_start x_end
end

/-! ### Claim theorems -/

/-- C1: for the table `{A:1, B:1, C:2}` (in insertion order), `_build_tree`
returns a root of frequency 4 whose left child is the leaf `C` (frequency 2)
and whose right child is an internal node of frequency 2 with left child
leaf `A` and right child leaf `B` — the stable-sort/append-at-end shape. -/
theorem build_tree_ABC_shape :
    build_tree [('A', 1), ('B', 1), ('C', 2)] =
      Option.some (TreeNode.mk Option.none 4
        (ChildNode.some (TreeNode.mk (Option.some 'C') 2 ChildNode.none ChildNode.none))
        (ChildNode.some (TreeNode.mk Option.none 2
          (ChildNode.some (TreeNode.mk (Option.some 'A') 1 ChildNode.none ChildNode.none))
          (ChildNode.some (TreeNode.mk (Option.some 'B') 1 ChildNode.none ChildNode.none))))) := rfl

/-- C5: `set_zoom` stores the requested zoom clamped into
`[min_zoom, max_zoom]`, and (whenever `min_zoom ≤ max_zoom`, as with the
defaults 0.3 and 3.0) the stored zoom is never outside that range; being a
total function, it never errors. -/
theorem set_zoom_clamps (s : TreeCanvas) (zoom : ℚ) (h : s.min_zoom ≤ s.max_zoom) :
    (set_zoom s zoom).zoom_level = max s.min_zoom (min s.max_zoom zoom) ∧
    s.min_zoom ≤ (set_zoom s zoom).zoom_level ∧
    (set_zoom s zoom).zoom_level ≤ s.max_zoom :=
  ⟨rfl, le_max_left _ _, max_le h (min_le_left _ _)⟩

/-- Witness for C5 at the initial canvas state and the out-of-range
request `-5`. -/
theorem set_zoom_clamps_witness :
    (set_zoom initCanvas (-5)).zoom_level = max initCanvas.min_zoom (min initCanvas.max_zoom (-5)) ∧
    initCanvas.min_zoom ≤ (set_zoom initCanvas (-5)).zoom_level ∧
    (set_zoom initCanvas (-5)).zoom_level ≤ initCanvas.max_zoom :=
  set_zoom_clamps initCanvas (-5) (by norm_num [initCanvas])

/-- C8: at constant zoom, panning is additive — two successive drag deltas
produce the same state as their sum in one drag; each delta is divided by
the current zoom before being added to the pan offsets. -/
theorem pan_by_additive (s : TreeCanvas) (a b c d : ℚ) :
    pan_by (pan_by s a b) c d = pan_by s (a + c) (b + d) := by
  simp only [pan_by]
  congr 1 <;> ring

/-- C6: with a tree present, `fit_to_view` stores
`min(vw / boundingWidth, vh / boundingHeight, 1)` clamped up to `min_zoom`
(so, with `min_zoom ≤ 1` as the default 0.3 is, never above 1), and resets
the pan to `(0, 0)`; the bounding box is the margined tree extent. -/
theorem fit_to_view_formula (s : TreeCanvas) (vw vh : ℚ) (rt : TreeNode)
    (h : s.root = Option.some rt) (hmz : s.min_zoom ≤ 1) :
    (fit_to_view s vw vh).zoom_level =
      max s.min_zoom
        (min (min (vw / ((treeWidth rt : ℚ) + 100)) (vh / ((treeHeight rt : ℚ) * 80 + 120))) 1) ∧
    (fit_to_view s vw vh).pan_x = 0 ∧ (fit_to_view s vw vh).pan_y = 0 ∧
    (fit_to_view s vw vh).zoom_level ≤ 1 := by
  have hw : (0 : ℚ) < (treeWidth rt : ℚ) + 100 := by positivity
  have hh : (0 : ℚ) < (treeHeight rt : ℚ) * 80 + 120 := by positivity
  simp only [fit_to_view, h, if_pos hw, if_pos hh]
  exact ⟨max_comm _ _, trivial, trivial, max_le (min_le_right _ _) hmz⟩

/-- Witness for C6: a canvas showing the single leaf `A(5)` fit into an
800×600 viewport. -/
theorem fit_to_view_formula_witness :
    (fit_to_view
        { initCanvas with
            root := Option.some (TreeNode.mk (Option.some 'A') 5 ChildNode.none ChildNode.none) }
        800 600).zoom_level =
      max ({ initCanvas with
              root := Option.some (TreeNode.mk (Option.some 'A') 5 ChildNode.none ChildNode.none) }
            : TreeCanvas).min_zoom
        (min (min ((800 : ℚ) /
              ((treeWidth (TreeNode.mk (Option.some 'A') 5 ChildNode.none ChildNode.none) : ℚ) + 100))
            ((600 : ℚ) /
              ((treeHeight (TreeNode.mk (Option.some 'A') 5 ChildNode.none ChildNode.none) : ℚ) * 80 + 120)))
          1) ∧
    (fit_to_view
        { initCanvas with
            root := Option.some (TreeNode.mk (Option.some 'A') 5 ChildNode.none ChildNode.none) }
        800 600).pan_x = 0 ∧
    (fit_to_view
        { initCanvas with
            root := Option.some (TreeNode.mk (Option.some 'A') 5 ChildNode.none ChildNode.none) }
        800 600).pan_y = 0 ∧
    (fit_to_view
        { initCanvas with
            root := Option.some (TreeNode.mk (Option.some 'A') 5 ChildNode.none ChildNode.none) }
        800 600).zoom_level ≤ 1 :=
  fit_to_view_formula _ 800 600 _ rfl (by norm_num [initCanvas])

/-- A canvas with no tree and a prior zoom of 2, as left by earlier user
interaction. -/
def noTreeCanvas : TreeCanvas :=
  { root := Option.none, zoom_level := 2, min_zoom := 3/10, max_zoom := 3
    pan_x := 5, pan_y := 7 }

/-- Counterexample to C7: with an absent tree (the degenerate bounding-box
case) and prior zoom 2, `fit_to_view` leaves the zoom at 2, not at the
claimed 1.0 (1.0 is inside `[0.3, 3]`, so no clamping excuse applies). -/
theorem fit_to_view_absent_counterexample :
    (fit_to_view noTreeCanvas 800 600).zoom_level = 2 ∧ (2 : ℚ) ≠ 1 :=
  ⟨rfl, by decide⟩

/-- C7 (amended): with an absent tree — the only way the bounding box is
zero-sized — `fit_to_view` performs no division at all and returns the state
unchanged: zoom and pan keep their prior values. -/
theorem fit_to_view_absent_id (s : TreeCanvas) (vw vh : ℚ) (h : s.root = Option.none) :
    fit_to_view s vw vh = s := by
  simp [fit_to_view, h]

/-- Witness for the amended C7 at the concrete no-tree canvas. -/
theorem fit_to_view_absent_id_witness :
    fit_to_view noTreeCanvas 800 600 = noTreeCanvas :=
  fit_to_view_absent_id noTreeCanvas 800 600 rfl

/-! ### Helper lemmas about the build loop -/

/-- The merged parent of the two lowest nodes. -/
def mkParent (x y : TreeNode) : TreeNode :=
  TreeNode.mk Option.none (x.freq + y.freq) (ChildNode.some x) (ChildNode.some y)

theorem mergeStep_eq_of_sort {nodes : List TreeNode} {x y : TreeNode} {rest : List TreeNode}
    (hs : List.insertionSort nodeLe nodes = x :: y :: rest) :
    mergeStep nodes = rest ++ [mkParent x y] := by
  simp only [mergeStep, hs, mkParent]

@[simp] theorem TreeNode.freq_mk (c : Option Char) (f : Int) (l r : ChildNode) :
    (TreeNode.mk c f l r).freq = f := rfl

theorem sort_two_of_length (nodes : List TreeNode) (h : 2 ≤ nodes.length) :
    ∃ x y rest, List.insertionSort nodeLe nodes = x :: y :: rest := by
  have hlen : (List.insertionSort nodeLe nodes).length = nodes.length :=
    (List.perm_insertionSort nodeLe nodes).length_eq
  rcases hs : List.insertionSort nodeLe nodes with _ | ⟨x, _ | ⟨y, rest⟩⟩
  · rw [hs] at hlen; simp at hlen; omega
  · rw [hs] at hlen; simp at hlen; omega
  · exact ⟨x, y, rest, rfl⟩

theorem mergeStep_length (a b : TreeNode) (rest : List TreeNode) :
    (mergeStep (a :: b :: rest)).length = rest.length + 1 := by
  obtain ⟨x, y, rest', hs⟩ := sort_two_of_length (a :: b :: rest) (by simp)
  have hlen : (List.insertionSort nodeLe (a :: b :: rest)).length = (a :: b :: rest).length :=
    (List.perm_insertionSort nodeLe _).length_eq
  rw [hs] at hlen
  simp at hlen
  rw [mergeStep_eq_of_sort hs]
  simp [hlen]

theorem mergeStep_freq_sum (a b : TreeNode) (rest : List TreeNode) :
    ((mergeStep (a :: b :: rest)).map TreeNode.freq).sum =
      (((a :: b :: rest)).map TreeNode.freq).sum := by
  obtain ⟨x, y, rest', hs⟩ := sort_two_of_length (a :: b :: rest) (by simp)
  have hperm : (List.insertionSort nodeLe (a :: b :: rest)).Perm (a :: b :: rest) :=
    List.perm_insertionSort nodeLe _
  rw [hs] at hperm
  have hsum : ((x :: y :: rest').map TreeNode.freq).sum =
      ((a :: b :: rest).map TreeNode.freq).sum := (hperm.map TreeNode.freq).sum_eq
  have hpar : (mkParent x y).freq = x.freq + y.freq := rfl
  rw [mergeStep_eq_of_sort hs]
  simp only [List.map_append, List.sum_append, List.map_cons, List.sum_cons, List.map_nil,
    List.sum_nil, hpar] at hsum ⊢
  omega

theorem mergeStep_forall (P : TreeNode → Prop)
    (hP : ∀ x y, P x → P y → x.freq ≤ y.freq → P (mkParent x y))
    (nodes : List TreeNode) (h : ∀ n ∈ nodes, P n) :
    ∀ n ∈ mergeStep nodes, P n := by
  have hperm := List.perm_insertionSort nodeLe nodes
  have hsorted := List.sorted_insertionSort nodeLe nodes
  intro n hn
  rcases hs : List.insertionSort nodeLe nodes with _ | ⟨x, _ | ⟨y, rest⟩⟩
  · have hm : mergeStep nodes = [] := by simp only [mergeStep, hs]
    rw [hm] at hn
    exact absurd hn (by simp)
  · have hm : mergeStep nodes = [x] := by simp only [mergeStep, hs]
    rw [hm] at hn
    simp at hn
    subst hn
    exact h n (hperm.mem_iff.mp (by rw [hs]; simp))
  · rw [mergeStep_eq_of_sort hs] at hn
    rw [hs] at hperm hsorted
    rcases List.mem_append.mp hn with hmem | hmem
    · exact h n (hperm.mem_iff.mp (by simp [hmem]))
    · have hn' : n = mkParent x y := by simpa using hmem
      subst hn'
      have hx : P x := h x (hperm.mem_iff.mp (by simp))
      have hy : P y := h y (hperm.mem_iff.mp (by simp))
      have hxy : nodeLe x y := (List.sorted_cons.mp hsorted).1 y (by simp)
      exact hP x y hx hy hxy

theorem buildLoopFuel_inv (P : TreeNode → Prop)
    (hP : ∀ x y, P x → P y → x.freq ≤ y.freq → P (mkParent x y)) :
    ∀ (fuel : Nat) (nodes : List TreeNode) (t : TreeNode),
      (∀ n ∈ nodes, P n) → buildLoopFuel fuel nodes = Option.some t → P t := by
  intro fuel
  induction fuel with
  | zero =>
      intro nodes t h heq
      match nodes, heq with
      | [t'], heq =>
          have : t' = t := by simpa [buildLoopFuel] using heq
          exact this ▸ h t' (by simp)
  | succ fuel ih =>
      intro nodes t h heq
      match nodes, heq with
      | [t'], heq =>
          have : t' = t := by simpa [buildLoopFuel] using heq
          exact this ▸ h t' (by simp)
      | a :: b :: rest, heq =>
          exact ih (mergeStep (a :: b :: rest)) t
            (mergeStep_forall P hP _ (fun n hn => h n hn)) heq

theorem buildLoopFuel_freq_sum :
    ∀ (fuel : Nat) (nodes : List TreeNode) (t : TreeNode),
      buildLoopFuel fuel nodes = Option.some t →
      t.freq = (nodes.map TreeNode.freq).sum := by
  intro fuel
  induction fuel with
  | zero =>
      intro nodes t heq
      match nodes, heq with
      | [t'], heq =>
          have : t' = t := by simpa [buildLoopFuel] using heq
          subst this
          simp
  | succ fuel ih =>
      intro nodes t heq
      match nodes, heq with
      | [t'], heq =>
          have : t' = t := by simpa [buildLoopFuel] using heq
          subst this
          simp
      | a :: b :: rest, heq =>
          have := ih (mergeStep (a :: b :: rest)) t heq
          rw [this, mergeStep_freq_sum]

theorem buildLoopFuel_some :
    ∀ (fuel : Nat) (nodes : List TreeNode), nodes ≠ [] → nodes.length ≤ fuel + 1 →
      ∃ t, buildLoopFuel fuel nodes = Option.some t := by
  intro fuel
  induction fuel with
  | zero =>
      intro nodes hne hlen
      match nodes with
      | [t] => exact ⟨t, rfl⟩
      | a :: b :: rest => simp at hlen
  | succ fuel ih =>
      intro nodes hne hlen
      match nodes with
      | [t] => exact ⟨t, rfl⟩
      | a :: b :: rest =>
          have hlen' : (mergeStep (a :: b :: rest)).length = rest.length + 1 :=
            mergeStep_length a b rest
          have hne' : mergeStep (a :: b :: rest) ≠ [] := by
            intro hnil; rw [hnil] at hlen'; simp at hlen'
          have hfit : (mergeStep (a :: b :: rest)).length ≤ fuel + 1 := by
            rw [hlen']; simp at hlen; omega
          obtain ⟨t, ht⟩ := ih (mergeStep (a :: b :: rest)) hne' hfit
          exact ⟨t, ht⟩

/-- Any property of trees that holds for every filtered leaf and is preserved
by merging the two lowest-frequency nodes holds for the built root. -/
theorem build_tree_inv (P : TreeNode → Prop)
    (hP : ∀ x y, P x → P y → x.freq ≤ y.freq → P (mkParent x y))
    (fd : List (Char × Int))
    (hleaf : ∀ c f, (c, f) ∈ fd → 0 < f →
      P (TreeNode.mk (Option.some c) f ChildNode.none ChildNode.none))
    (t : TreeNode) (h : build_tree fd = Option.some t) : P t := by
  unfold build_tree at h
  by_cases hempty :
      ((fd.filter fun p => decide (0 < p.2)).map
        fun p => TreeNode.mk (Option.some p.1) p.2 ChildNode.none ChildNode.none).isEmpty
  · simp only [hempty, if_true] at h
    exact absurd h (by simp)
  · simp only [hempty, if_false] at h
    refine buildLoopFuel_inv P hP _ _ t ?_ h
    intro n hn
    obtain ⟨p, hp, hpn⟩ := List.mem_map.mp hn
    obtain ⟨hpfd, hppos⟩ := List.mem_filter.mp hp
    have hpos : 0 < p.2 := by simpa using hppos
    exact hpn ▸ hleaf p.1 p.2 hpfd hpos

/-- C2: for every non-empty frequency table whose counts are all positive,
`_build_tree` returns a tree whose root frequency is the sum of all input
frequencies. -/
theorem build_tree_root_freq (fd : List (Char × Int)) (hne : fd ≠ [])
    (hpos : ∀ p ∈ fd, 0 < p.2) :
    ∃ t, build_tree fd = Option.some t ∧ t.freq = (fd.map Prod.snd).sum := by
  have hfilter : fd.filter (fun p => decide (0 < p.2)) = fd :=
    List.filter_eq_self.mpr (fun p hp => by simpa using hpos p hp)
  have hnodes_ne :
      fd.map (fun p => TreeNode.mk (Option.some p.1) p.2 ChildNode.none ChildNode.none) ≠ [] := by
    simpa using hne
  obtain ⟨t, ht⟩ := buildLoopFuel_some
    (fd.map fun p => TreeNode.mk (Option.some p.1) p.2 ChildNode.none ChildNode.none).length
    (fd.map fun p => TreeNode.mk (Option.some p.1) p.2 ChildNode.none ChildNode.none)
    hnodes_ne (Nat.le_succ _)
  refine ⟨t, ?_, ?_⟩
  · unfold build_tree
    simp only [hfilter]
    rw [if_neg (by simpa using hnodes_ne)]
    exact ht
  · rw [buildLoopFuel_freq_sum _ _ _ ht]
    rw [List.map_map]
    have hcomp : (TreeNode.freq ∘ fun p : Char × Int =>
        TreeNode.mk (Option.some p.1) p.2 ChildNode.none ChildNode.none) = Prod.snd := by
      funext p; rfl
    rw [hcomp]

/-- Witness for C2 at the table `{A:1, B:2}`. -/
theorem build_tree_root_freq_witness :
    ∃ t, build_tree [('A', 1), ('B', 2)] = Option.some t ∧
      t.freq = ([(('A' : Char), (1 : Int)), ('B', 2)].map Prod.snd).sum :=
  build_tree_root_freq [('A', 1), ('B', 2)] (by decide) (by decide)

/-- C3: every tree returned by `_build_tree` satisfies the structural
invariant — a node is a leaf iff both children are absent iff its symbol is
present, every internal node's frequency is the sum of its children's — and
every leaf carries a symbol together with exactly its input table entry. -/
theorem build_tree_structOK (fd : List (Char × Int)) (t : TreeNode)
    (h : build_tree fd = Option.some t) :
    structOK t = true ∧
    ∀ p ∈ leavesOf t, ∃ c, p.1 = Option.some c ∧ (c, p.2) ∈ fd := by
  refine build_tree_inv
    (fun n => structOK n = true ∧
      ∀ p ∈ leavesOf n, ∃ c, p.1 = Option.some c ∧ (c, p.2) ∈ fd)
    ?_ fd ?_ t h
  · rintro x y ⟨hxs, hxl⟩ ⟨hys, hyl⟩ _
    constructor
    · simp only [mkParent, structOK, Option.isNone_none, Bool.true_and, decide_eq_true_eq]
      simp [hxs, hys]
    · intro p hp
      have hl : leavesOf (mkParent x y) = leavesOf x ++ leavesOf y := by
        simp [mkParent, leavesOf, leavesOfC]
      rw [hl] at hp
      rcases List.mem_append.mp hp with hm | hm
      · exact hxl p hm
      · exact hyl p hm
  · intro c f hcf hfpos
    refine ⟨by simp [structOK], ?_⟩
    intro p hp
    simp only [leavesOf, List.mem_singleton] at hp
    subst hp
    exact ⟨c, rfl, hcf⟩

/-- Witness for C3 at the table `{A:1, B:2}` and its built tree. -/
theorem build_tree_structOK_witness :
    structOK (TreeNode.mk Option.none 3
      (ChildNode.some (TreeNode.mk (Option.some 'A') 1 ChildNode.none ChildNode.none))
      (ChildNode.some (TreeNode.mk (Option.some 'B') 2 ChildNode.none ChildNode.none))) = true ∧
    ∀ p ∈ leavesOf (TreeNode.mk Option.none 3
      (ChildNode.some (TreeNode.mk (Option.some 'A') 1 ChildNode.none ChildNode.none))
      (ChildNode.some (TreeNode.mk (Option.some 'B') 2 ChildNode.none ChildNode.none))),
      ∃ c, p.1 = Option.some c ∧ (c, p.2) ∈ [(('A' : Char), (1 : Int)), ('B', 2)] :=
  build_tree_structOK [('A', 1), ('B', 2)] _ rfl

/-- C10: in every tree returned by `_build_tree`, every internal node has
`left.freq ≤ right.freq` — the lower-frequency (or, under ties,
earlier-sorted) merged node always becomes the left child. -/
theorem build_tree_leftFreqLe (fd : List (Char × Int)) (t : TreeNode)
    (h : build_tree fd = Option.some t) : leftFreqLe t = true := by
  refine build_tree_inv (fun n => leftFreqLe n = true) ?_ fd ?_ t h
  · intro x y hx hy hxy
    simp only [mkParent, leftFreqLe, decide_eq_true_eq, Bool.and_eq_true]
    exact ⟨⟨hxy, hx⟩, hy⟩
  · intro c f _ _
    simp [leftFreqLe]

/-- Witness for C10 at the table `{B:2, A:1}`, whose build swaps the two
leaves so that the lighter `A` becomes the left child. -/
theorem build_tree_leftFreqLe_witness :
    leftFreqLe (TreeNode.mk Option.none 3
      (ChildNode.some (TreeNode.mk (Option.some 'A') 1 ChildNode.none ChildNode.none))
      (ChildNode.some (TreeNode.mk (Option.some 'B') 2 ChildNode.none ChildNode.none))) = true :=
  build_tree_leftFreqLe [('B', 2), ('A', 1)] _ rfl

/-! ### The horizontal layout rule (C4) -/

mutual
theorem calcPos_halfSplit_aux : ∀ (t : TreeNode) (xs xe : ℚ) (lvl : Nat),
    halfSplitLayout (calcPos t xs xe lvl) xs xe
  | TreeNode.mk _ _ l r, xs, xe, lvl =>
      ⟨rfl, calcPosC_halfSplit_aux l xs ((xs + xe) / 2) (lvl + 1),
        calcPosC_halfSplit_aux r ((xs + xe) / 2) xe (lvl + 1)⟩
theorem calcPosC_halfSplit_aux : ∀ (ch : ChildNode) (xs xe : ℚ) (lvl : Nat),
    halfSplitLayoutC (calcPosC ch xs xe lvl) xs xe
  | ChildNode.none, _, _, _ => trivial
  | ChildNode.some t, xs, xe, lvl => calcPos_halfSplit_aux t xs xe lvl
end

/-- The example tree of shape `root(C, (A, B))` — the build result for
`{A:1, B:1, C:2}` — whose subtree widths are 60 (left) and 120 (right). -/
def exTree3 : TreeNode :=
  TreeNode.mk Option.none 4
    (ChildNode.some (TreeNode.mk (Option.some 'C') 2 ChildNode.none ChildNode.none))
    (ChildNode.some (TreeNode.mk Option.none 2
      (ChildNode.some (TreeNode.mk (Option.some 'A') 1 ChildNode.none ChildNode.none))
      (ChildNode.some (TreeNode.mk (Option.some 'B') 1 ChildNode.none ChildNode.none))))

/-- Counterexample to C4 as stated: on the unbalanced tree `root(C, (A, B))`
the code does not split the root interval `[0, 180]` proportionally to the
child widths 60 and 120 (which would put the leaf `C` at `x = 30`); it splits
at the midpoint, putting `C` at `x = 45`. -/
theorem calcPos_propSplit_counterexample :
    ¬ propSplitLayout (calcPos exTree3 0 (treeWidth exTree3 : ℚ) 0)
        0 (treeWidth exTree3 : ℚ) := by
  intro h
  have hw : treeWidth exTree3 = 180 := rfl
  rw [hw] at h
  norm_num [exTree3, calcPos, calcPosC, propSplitLayout, propSplitLayoutC,
    posWidth, posWidthC] at h

/-- C4 (amended): the layout assigns each node an `x` at the midpoint of the
horizontal interval allotted to its subtree, where a node's interval is split
into two equal halves at its midpoint — not proportionally to the child
widths — the left child receiving the left half and the right child the right
half, with the root's interval being `[0, totalWidth]`. -/
theorem calcPos_halfSplit (t : TreeNode) :
    halfSplitLayout (calcPos t 0 (treeWidth t : ℚ) 0) 0 (treeWidth t : ℚ) :=
  calcPos_halfSplit_aux t 0 (treeWidth t : ℚ) 0

/-! ### Non-overlap of layout positions (C9) -/

mutual
theorem treeWidth_ge : ∀ t : TreeNode, 60 ≤ treeWidth t
  | TreeNode.mk _ _ ChildNode.none ChildNode.none => by simp [treeWidth]
  | TreeNode.mk _ _ (ChildNode.some l) r => by
      have h := treeWidth_ge l
      cases r <;> simp [treeWidth, treeWidthC] <;> omega
  | TreeNode.mk _ _ ChildNode.none (ChildNode.some r) => by
      have h := treeWidth_ge r
      simp [treeWidth, treeWidthC]
      omega
theorem treeWidthC_ge : ∀ ch : ChildNode, 0 ≤ treeWidthC ch
  | ChildNode.none => by simp [treeWidthC]
  | ChildNode.some t => by simp [treeWidthC]
end

mutual
theorem entriesD_bound : ∀ (t : TreeNode) (xs xe : ℚ) (lvl : Nat), xs < xe →
    ∀ e ∈ entriesD (calcPos t xs xe lvl) lvl,
      lvl ≤ e.1 ∧ xs < e.2.1 ∧ e.2.1 < xe ∧ e.2.2 = (e.1 : ℚ) * 80 + 60
  | TreeNode.mk _ _ l r, xs, xe, lvl, hlt => by
      have hmid1 : xs < (xs + xe) / 2 := by linarith
      have hmid2 : (xs + xe) / 2 < xe := by linarith
      intro e he
      simp only [calcPos, entriesD, List.mem_cons, List.mem_append] at he
      rcases he with he | he | he
      · subst he
        exact ⟨Nat.le_refl _, hmid1, hmid2, rfl⟩
      · have h := entriesDC_bound l xs ((xs + xe) / 2) (lvl + 1) hmid1 e he
        exact ⟨by omega, h.2.1, lt_trans h.2.2.1 hmid2, h.2.2.2⟩
      · have h := entriesDC_bound r ((xs + xe) / 2) xe (lvl + 1) hmid2 e he
        exact ⟨by omega, lt_trans hmid1 h.2.1, h.2.2.1, h.2.2.2⟩
theorem entriesDC_bound : ∀ (ch : ChildNode) (xs xe : ℚ) (lvl : Nat), xs < xe →
    ∀ e ∈ entriesDC (calcPosC ch xs xe lvl) lvl,
      lvl ≤ e.1 ∧ xs < e.2.1 ∧ e.2.1 < xe ∧ e.2.2 = (e.1 : ℚ) * 80 + 60
  | ChildNode.none, xs, xe, lvl, hlt => by
      intro e he
      simp [calcPosC, entriesDC] at he
  | ChildNode.some t, xs, xe, lvl, hlt => by
      intro e he
      exact entriesD_bound t xs xe lvl hlt e he
end

mutual
theorem entriesD_pairwise : ∀ (t : TreeNode) (xs xe : ℚ) (lvl : Nat), xs < xe →
    (entriesD (calcPos t xs xe lvl) lvl).Pairwise
      (fun p q => p.1 = q.1 → p.2.1 ≠ q.2.1)
  | TreeNode.mk _ _ l r, xs, xe, lvl, hlt => by
      have hmid1 : xs < (xs + xe) / 2 := by linarith
      have hmid2 : (xs + xe) / 2 < xe := by linarith
      simp only [calcPos, entriesD]
      refine List.pairwise_cons.mpr ⟨?_, ?_⟩
      · intro q hq hdep
        rcases List.mem_append.mp hq with hm | hm
        · have h := entriesDC_bound l xs ((xs + xe) / 2) (lvl + 1) hmid1 q hm
          omega
        · have h := entriesDC_bound r ((xs + xe) / 2) xe (lvl + 1) hmid2 q hm
          omega
      · refine List.pairwise_append.mpr
          ⟨entriesDC_pairwise l xs ((xs + xe) / 2) (lvl + 1) hmid1,
           entriesDC_pairwise r ((xs + xe) / 2) xe (lvl + 1) hmid2, ?_⟩
        intro p hp q hq _
        have h1 := entriesDC_bound l xs ((xs + xe) / 2) (lvl + 1) hmid1 p hp
        have h2 := entriesDC_bound r ((xs + xe) / 2) xe (lvl + 1) hmid2 q hq
        exact ne_of_lt (lt_trans h1.2.2.1 h2.2.1)
theorem entriesDC_pairwise : ∀ (ch : ChildNode) (xs xe : ℚ) (lvl : Nat), xs < xe →
    (entriesDC (calcPosC ch xs xe lvl) lvl).Pairwise
      (fun p q => p.1 = q.1 → p.2.1 ≠ q.2.1)
  | ChildNode.none, xs, xe, lvl, hlt => by simp [calcPosC, entriesDC]
  | ChildNode.some t, xs, xe, lvl, hlt => entriesD_pairwise t xs xe lvl hlt
end

/-- C9: for every tree with more than one node, the layout started on
`[0, treeWidth]` gives every node `y = depth * 80 + 60` (so equal depths
share a `y`), gives nodes of equal depth distinct `x` coordinates, and
assigns no two distinct nodes the same `(x, y)` pair. -/
theorem layout_no_overlap (t : TreeNode) (_hnd : 1 < countNodes t) :
    (∀ e ∈ layoutEntries t, e.2.2 = (e.1 : ℚ) * 80 + 60) ∧
    (layoutEntries t).Pairwise (fun p q => p.1 = q.1 → p.2.1 ≠ q.2.1) ∧
    (layoutEntries t).Pairwise (fun p q => p.2 ≠ q.2) := by
  have hwnat : 0 < treeWidth t := by have h := treeWidth_ge t; omega
  have hw : (0 : ℚ) < (treeWidth t : ℚ) := by exact_mod_cast hwnat
  simp only [layoutEntries]
  refine ⟨fun e he => (entriesD_bound t 0 (treeWidth t : ℚ) 0 hw e he).2.2.2,
    entriesD_pairwise t 0 (treeWidth t : ℚ) 0 hw, ?_⟩
  refine List.Pairwise.imp_of_mem ?_ (entriesD_pairwise t 0 (treeWidth t : ℚ) 0 hw)
  intro p q hp hq hR heq
  have hyp := (entriesD_bound t 0 (treeWidth t : ℚ) 0 hw p hp).2.2.2
  have hyq := (entriesD_bound t 0 (treeWidth t : ℚ) 0 hw q hq).2.2.2
  have hy : p.2.2 = q.2.2 := by rw [heq]
  have hx : p.2.1 = q.2.1 := by rw [heq]
  rw [hyp, hyq] at hy
  have hcast : (p.1 : ℚ) = (q.1 : ℚ) := by linarith
  exact hR (Nat.cast_injective hcast) hx

/-- Witness for C9 at the five-node tree `root(C, (A, B))`. -/
theorem layout_no_overlap_witness :
    (∀ e ∈ layoutEntries exTree3, e.2.2 = (e.1 : ℚ) * 80 + 60) ∧
    (layoutEntries exTree3).Pairwise (fun p q => p.1 = q.1 → p.2.1 ≠ q.2.1) ∧
    (layoutEntries exTree3).Pairwise (fun p q => p.2 ≠ q.2) :=
  layout_no_overlap exTree3 (by decide)
